import Mathlib

/-!
Shallow embedding of the workspace-cleaner script (`src/scripts/clean.py`)
and of the in-memory repository adapter
(`src/example_app/adapters/outbound/in_memory_repository.py`).

Filesystem paths are modelled as lists of components (`Path`); a filesystem
state is a finite list of entries in traversal order (`FS`), each entry
carrying its absolute path, whether it is a directory, its byte size
(meaningful for regular files), and an `ok` flag modelling whether
stat/traversal of that entry succeeds (`ok = false` means touching the entry
raises `PermissionError`/`OSError`).

String primitives (`startsWith`, `endsWith`, `split("*", 1)`, `in`) are
embedded structurally over the character list of the string so that every
definition evaluates by kernel reduction on concrete inputs.
-/

namespace CleanScript

/-- A filesystem path, as its list of components (`pathlib.Path.parts`). -/
abbrev Path := List String

/-- One filesystem entry: its path, whether it is a directory, its size in
bytes (for regular files), and whether stat/traversal of it succeeds. -/
structure FSEntry where
  path : Path
  isDir : Bool
  size : Nat
  ok : Bool
deriving DecidableEq

/-- A filesystem state: the entries, listed in traversal order. -/
abbrev FS := List FSEntry

/-- Python `path.name`: the final component of a path. -/
def baseName (p : Path) : String := p.getLastD ""

/-- Character comparison by code point, as Python compares characters. -/
def charLt (a b : Char) : Bool := decide (a.toNat < b.toNat)

/-- Lexicographic comparison of character lists: Python string `<`. -/
def charsLt : List Char → List Char → Bool
  | [], [] => false
  | [], _ :: _ => true
  | _ :: _, [] => false
  | a :: as, b :: bs => if charLt a b then true else if charLt b a then false else charsLt as bs

/-- Python string `<`, via the characters of the strings. -/
def strLt (a b : String) : Bool := charsLt a.data b.data

theorem charLt_trichot (a b : Char) :
    (charLt a b = true ∧ charLt b a = false) ∨
    (charLt a b = false ∧ charLt b a = false ∧ a = b) ∨
    (charLt b a = true ∧ charLt a b = false) := by
  rcases Nat.lt_trichotomy a.toNat b.toNat with h | h | h
  · exact Or.inl ⟨by simp [charLt, h], by simp [charLt, Nat.le_of_lt h, Nat.not_lt]⟩
  · refine Or.inr (Or.inl ⟨by simp [charLt, h], by simp [charLt, h], ?_⟩)
    exact Char.ext (UInt32.toNat.inj h)
  · exact Or.inr (Or.inr ⟨by simp [charLt, h], by simp [charLt, Nat.le_of_lt h, Nat.not_lt]⟩)

theorem charLt_trans {a b c : Char} (h1 : charLt a b = true)
    (h2 : charLt b c = true) : charLt a c = true := by
  simp only [charLt, decide_eq_true_eq] at h1 h2 ⊢
  exact Nat.lt_trans h1 h2

theorem charsLt_trichot (xs ys : List Char) :
    (charsLt xs ys = true ∧ charsLt ys xs = false) ∨
    (charsLt xs ys = false ∧ charsLt ys xs = false ∧ xs = ys) ∨
    (charsLt ys xs = true ∧ charsLt xs ys = false) := by
  induction xs generalizing ys with
  | nil => cases ys with
    | nil => exact Or.inr (Or.inl ⟨rfl, rfl, rfl⟩)
    | cons b bs => exact Or.inl ⟨rfl, rfl⟩
  | cons a as ih =>
    cases ys with
    | nil => exact Or.inr (Or.inr ⟨rfl, rfl⟩)
    | cons b bs =>
      rcases charLt_trichot a b with ⟨h1, h2⟩ | ⟨h1, h2, h3⟩ | ⟨h1, h2⟩
      · exact Or.inl ⟨by simp [charsLt, h1], by simp [charsLt, h1, h2]⟩
      · subst h3
        rcases ih bs with ⟨g1, g2⟩ | ⟨g1, g2, g3⟩ | ⟨g1, g2⟩
        · exact Or.inl ⟨by simp [charsLt, h1, g1], by simp [charsLt, h1, g2]⟩
        · exact Or.inr (Or.inl ⟨by simp [charsLt, h1, g1], by simp [charsLt, h1, g2], by rw [g3]⟩)
        · exact Or.inr (Or.inr ⟨by simp [charsLt, h1, g1], by simp [charsLt, h1, g2]⟩)
      · exact Or.inr (Or.inr ⟨by simp [charsLt, h1, h2], by simp [charsLt, h1, h2]⟩)

theorem charsLt_trans {xs ys zs : List Char} (h1 : charsLt xs ys = true)
    (h2 : charsLt ys zs = true) : charsLt xs zs = true := by
  induction xs generalizing ys zs with
  | nil => cases zs with
    | nil =>
      cases ys with
      | nil => exact h2
      | cons b bs => simp [charsLt] at h2
    | cons c cs => rfl
  | cons a as ih =>
    cases ys with
    | nil => simp [charsLt] at h1
    | cons b bs =>
      cases zs with
      | nil => simp [charsLt] at h2
      | cons c cs =>
        rw [charsLt] at h1 h2 ⊢
        rcases charLt_trichot a b with ⟨p1, p2⟩ | ⟨p1, p2, p3⟩ | ⟨p1, p2⟩
        · rcases charLt_trichot b c with ⟨q1, q2⟩ | ⟨q1, q2, q3⟩ | ⟨q1, q2⟩
          · simp [charLt_trans p1 q1]
          · subst q3; simp [p1]
          · rw [q1, if_neg (by simp [q2]), if_pos rfl] at h2
            exact absurd h2 (by simp)
        · subst p3
          rw [if_neg (by simp [p1]), if_neg (by simp [p2])] at h1
          rcases charLt_trichot a c with ⟨q1, q2⟩ | ⟨q1, q2, q3⟩ | ⟨q1, q2⟩
          · simp [q1]
          · subst q3
            rw [if_neg (by simp [q1]), if_neg (by simp [q1])] at h2 ⊢
            exact ih h1 h2
          · rw [if_neg (by simp [q2]), if_pos (by simp [q1])] at h2
            exact absurd h2 (by simp)
        · rw [if_neg (by simp [p2]), if_pos (by simp [p1])] at h1
          exact absurd h1 (by simp)

theorem strLt_trichot (a b : String) :
    (strLt a b = true ∧ strLt b a = false) ∨
    (strLt a b = false ∧ strLt b a = false ∧ a = b) ∨
    (strLt b a = true ∧ strLt a b = false) := by
  rcases charsLt_trichot a.data b.data with ⟨h1, h2⟩ | ⟨h1, h2, h3⟩ | ⟨h1, h2⟩
  · exact Or.inl ⟨h1, h2⟩
  · refine Or.inr (Or.inl ⟨h1, h2, ?_⟩)
    cases a; cases b; exact congrArg String.mk h3
  · exact Or.inr (Or.inr ⟨h1, h2⟩)

theorem strLt_trans {a b c : String} (h1 : strLt a b = true)
    (h2 : strLt b c = true) : strLt a c = true :=
  charsLt_trans h1 h2

/-- Total order on paths: lexicographic on components, mirroring
`sorted()` over `pathlib.Path` values. -/
def pathLe : Path → Path → Bool
  | [], _ => true
  | _ :: _, [] => false
  | a :: as, b :: bs => if strLt a b then true else if strLt b a then false else pathLe as bs

/-- Strict version of `pathLe`. -/
def pathLt (p q : Path) : Bool := pathLe p q && p != q

theorem pathLe_total (p q : Path) : pathLe p q = true ∨ pathLe q p = true := by
  induction p generalizing q with
  | nil => exact Or.inl rfl
  | cons a as ih =>
    cases q with
    | nil => exact Or.inr rfl
    | cons b bs =>
      rcases strLt_trichot a b with ⟨h1, h2⟩ | ⟨h1, h2, h3⟩ | ⟨h1, h2⟩
      · left; simp [pathLe, h1]
      · subst h3
        rcases ih bs with g | g
        · left; simp [pathLe, h1, g]
        · right; simp [pathLe, h1, g]
      · right; simp [pathLe, h1]

theorem pathLe_antisymm {p q : Path} (h1 : pathLe p q = true)
    (h2 : pathLe q p = true) : p = q := by
  induction p generalizing q with
  | nil => cases q with
    | nil => rfl
    | cons b bs => simp [pathLe] at h2
  | cons a as ih =>
    cases q with
    | nil => simp [pathLe] at h1
    | cons b bs =>
      rcases strLt_trichot a b with ⟨g1, g2⟩ | ⟨g1, g2, g3⟩ | ⟨g1, g2⟩
      · rw [pathLe, if_neg (by simp [g2]), if_pos (by simp [g1])] at h2
        exact absurd h2 (by simp)
      · subst g3
        rw [pathLe, if_neg (by simp [g1]), if_neg (by simp [g1])] at h1 h2
        rw [ih h1 h2]
      · rw [pathLe, if_neg (by simp [g2]), if_pos (by simp [g1])] at h1
        exact absurd h1 (by simp)

theorem pathLe_trans {p q r : Path} (h1 : pathLe p q = true)
    (h2 : pathLe q r = true) : pathLe p r = true := by
  induction p generalizing q r with
  | nil => rfl
  | cons a as ih =>
    cases q with
    | nil => simp [pathLe] at h1
    | cons b bs =>
      cases r with
      | nil => simp [pathLe] at h2
      | cons c cs =>
        rw [pathLe] at h1 h2 ⊢
        rcases strLt_trichot a b with ⟨p1, p2⟩ | ⟨p1, p2, p3⟩ | ⟨p1, p2⟩
        · rcases strLt_trichot b c with ⟨q1, q2⟩ | ⟨q1, q2, q3⟩ | ⟨q1, q2⟩
          · rw [if_pos (by simp [strLt_trans p1 q1])]
          · subst q3; rw [if_pos (by simp [p1])]
          · rw [if_neg (by simp [q2]), if_pos (by simp [q1])] at h2
            exact absurd h2 (by simp)
        · subst p3
          rw [if_neg (by simp [p1]), if_neg (by simp [p1])] at h1
          rcases strLt_trichot a c with ⟨q1, q2⟩ | ⟨q1, q2, q3⟩ | ⟨q1, q2⟩
          · rw [if_pos (by simp [q1])]
          · subst q3
            rw [if_neg (by simp [q1]), if_neg (by simp [q1])] at h2 ⊢
            exact ih h1 h2
          · rw [if_neg (by simp [q2]), if_pos (by simp [q1])] at h2
            exact absurd h2 (by simp)
        · rw [if_neg (by simp [p2]), if_pos (by simp [p1])] at h1
          exact absurd h1 (by simp)

/-- The path order as a decidable propositional relation, for sorting. -/
abbrev pathLeR (p q : Path) : Prop := pathLe p q = true

instance pathLeIsAntisymm : IsAntisymm Path pathLeR :=
  ⟨fun _ _ => pathLe_antisymm⟩

instance pathLeIsTotal : IsTotal Path pathLeR :=
  ⟨pathLe_total⟩

instance pathLeIsTrans : IsTrans Path pathLeR :=
  ⟨fun _ _ _ => pathLe_trans⟩

/-- Python `sorted(set(xs))`: duplicates removed, then sorted by `pathLe`. -/
def sortedDedup (xs : List Path) : List Path :=
  (xs.dedup).insertionSort pathLeR

theorem mem_sortedDedup {p : Path} {xs : List Path} :
    p ∈ sortedDedup xs ↔ p ∈ xs := by
  simp [sortedDedup, List.mem_insertionSort]

theorem sortedDedup_sorted (xs : List Path) :
    (sortedDedup xs).Pairwise (fun p q => pathLe p q = true) :=
  List.sorted_insertionSort pathLeR xs.dedup

theorem sortedDedup_nodup (xs : List Path) : (sortedDedup xs).Nodup :=
  (List.perm_insertionSort pathLeR xs.dedup).nodup_iff.mpr (List.nodup_dedup xs)

theorem sortedDedup_pairwise_lt (xs : List Path) :
    (sortedDedup xs).Pairwise (fun p q => pathLt p q = true) := by
  have h := (sortedDedup_sorted xs).and (sortedDedup_nodup xs)
  exact h.imp (fun hpq => by
    simp only [pathLt, Bool.and_eq_true, bne_iff_ne]
    exact ⟨hpq.1, hpq.2⟩)

/-- Constant `DIRS_TO_CLEAN` from `clean.py`: directory names to always remove. -/
def DIRS_TO_CLEAN : List String :=
  ["__pycache__", ".pytest_cache", ".mypy_cache", ".ruff_cache", ".hypothesis",
   ".tox", ".nox", "build", "dist", "wheels", "htmlcov", "*.egg-info"]

/-- Constant `FILES_TO_CLEAN` from `clean.py`: file glob patterns to always remove. -/
def FILES_TO_CLEAN : List String :=
  ["*.pyc", "*.pyo", "*.pyd", ".coverage", "coverage.xml", "*.cover", "*.py,cover"]

/-- Constant `PRESERVE_PATTERNS` from `clean.py`: local config files to keep. -/
def PRESERVE_PATTERNS : List String :=
  [".env", ".env.*", ".envrc", ".python-version", ".tool-versions",
   ".editorconfig", ".vscode", ".idea", "*.local", "*.local.*"]

/-- Python `s.startswith(pre)`, structurally over the characters. -/
def strStarts (s pre : String) : Bool := pre.data.isPrefixOf s.data

/-- Python `s.endswith(suf)`, structurally over the characters. -/
def strEnds (s suf : String) : Bool := suf.data.isSuffixOf s.data

/-- The characters of `s` after dropping the first `k`. -/
def strDropChars (s : String) (k : Nat) : List Char := s.data.drop k

/-- Glob matching of one name against one cleanup pattern, as `Path.rglob`
behaves on the fixed lists above: every pattern there is either a literal name
or a single leading `*` followed by a literal suffix (no other glob
metacharacter occurs), and a lone-component pattern is matched against the
final path component. -/
def globMatch (pat name : String) : Bool :=
  if strStarts pat "*" then (strDropChars pat 1).isSuffixOf name.data
  else name == pat

/-- Python `root.rglob(pat)` over the modelled filesystem: every entry strictly below
`root` whose base name matches the pattern, in traversal order. -/
def rglob (fs : FS) (root : Path) (pat : String) : List Path :=
  (fs.filter (fun e =>
    root.isPrefixOf e.path && e.path != root && globMatch pat (baseName e.path))).map
    (fun e => e.path)

/-- One preservation pattern tested against a name, following the branch
structure of `should_preserve`: a pattern starting with `*.` is a suffix
match on `pattern[1:]`, any other pattern containing `*` is split at its
first `*` into a prefix/suffix test, and the rest are exact equality. -/
def matchesPreserve (pat name : String) : Bool :=
  if strStarts pat "*." then (strDropChars pat 1).isSuffixOf name.data
  else if pat.data.contains '*' then
    let pre := pat.data.takeWhile (fun c => c != '*')
    let suf := pat.data.drop (pre.length + 1)
    pre.isPrefixOf name.data && suf.isSuffixOf name.data
  else name == pat

/-- Function `should_preserve`: whether any preservation pattern matches the base name. -/
def should_preserve (p : Path) : Bool :=
  PRESERVE_PATTERNS.any (fun pat => matchesPreserve pat (baseName p))

/-- Python `venv_path.exists()`: some entry has this path. -/
def fsHas (fs : FS) (p : Path) : Bool := fs.any (fun e => e.path == p)

/-- Python `d.is_dir()`: some entry has this path and is a directory. -/
def isDirIn (fs : FS) (p : Path) : Bool := fs.any (fun e => e.path == p && e.isDir)

/-- Python `f.is_file()`: some entry has this path and is a regular file. -/
def isFileIn (fs : FS) (p : Path) : Bool := fs.any (fun e => e.path == p && !e.isDir)

/-- Function `find_dirs_to_clean`: glob every directory cleanup pattern under `root`,
optionally append `root/.venv` when `include_venv` is set and it exists, then
keep entries that are not preserved, are outside `.venv` (unless
`include_venv`), and are directories; return `sorted(set(...))`. -/
def find_dirs_to_clean (fs : FS) (root : Path) (include_venv : Bool) : List Path :=
  let found := DIRS_TO_CLEAN.flatMap (fun pat => rglob fs root pat)
  let found := if include_venv && fsHas fs (root ++ [".venv"]) then
    found ++ [root ++ [".venv"]] else found
  let result := found.filter (fun d =>
    !should_preserve d && (include_venv || !d.contains ".venv") && isDirIn fs d)
  sortedDedup result

/-- Function `find_files_to_clean`: glob every file cleanup pattern under `root`, keep
entries that are not preserved, are outside `.venv`, and are regular files;
return `sorted(set(...))`. Note the function takes no `include_venv`
parameter: files under `.venv` are always dropped. -/
def find_files_to_clean (fs : FS) (root : Path) : List Path :=
  let found := FILES_TO_CLEAN.flatMap (fun pat => rglob fs root pat)
  let result := found.filter (fun f =>
    !should_preserve f && !f.contains ".venv" && isFileIn fs f)
  sortedDedup result

/-- The value `n / 1024 ^ k` printed with one decimal place, rounding half to
even as `f"{x:.1f}"` does. Exactness of the model: for the byte counts a
filesystem can report, `float(n)` is exact and division by the power of two
`1024` only adjusts the exponent, so the Python float being formatted is
exactly the rational `n / 1024 ^ k` and `%.1f` rounds that rational to one
decimal with ties to even. -/
def renderScaled (n k : Nat) : String :=
  let num := 10 * n
  let den := 1024 ^ k
  let q := num / den
  let r := num % den
  let t := if 2 * r < den then q
    else if den < 2 * r then q + 1
    else if q % 2 = 0 then q else q + 1
  toString (t / 10) ++ "." ++ toString (t % 10)

/-- Function `format_size`: the loop over units `B, KB, MB, GB` returns at the first
unit where the scaled value is below `1024` (the float comparison `size <
1024` is exact and equivalent to `n < 1024 ^ (k+1)`); after the loop the
value is rendered in `TB` unconditionally. -/
def format_size (n : Nat) : String :=
  if n < 1024 then renderScaled n 0 ++ " B"
  else if n < 1024 ^ 2 then renderScaled n 1 ++ " KB"
  else if n < 1024 ^ 3 then renderScaled n 2 ++ " MB"
  else if n < 1024 ^ 4 then renderScaled n 3 ++ " GB"
  else renderScaled n 4 ++ " TB"

/-- The unit used by `format_size` when the byte count was divided down `k`
times. -/
def unitName : Nat → String
  | 0 => "B"
  | 1 => "KB"
  | 2 => "MB"
  | 3 => "GB"
  | _ => "TB"

/-- The loop body of `get_dir_size`: walk the entries in traversal order,
adding the size of each regular file strictly below `p`; the whole loop sits
in one `try`, so the first entry below `p` whose handling raises
(`ok = false`) aborts the walk and the partial total is returned. -/
def get_dir_size_go (p : Path) : FS → Nat → Nat
  | [], total => total
  | e :: rest, total =>
    if p.isPrefixOf e.path && e.path != p then
      if e.ok then
        if !e.isDir then get_dir_size_go p rest (total + e.size)
        else get_dir_size_go p rest total
      else total
    else get_dir_size_go p rest total

/-- Function `get_dir_size`: total size of the regular files below a directory,
scanning in traversal order inside a single `try/except`. -/
def get_dir_size (fs : FS) (p : Path) : Nat := get_dir_size_go p fs 0

/-- Function `is_inside_any_dir`: `file_path.relative_to(d)` succeeds exactly when `d`
is a (component) prefix of the file path. -/
def is_inside_any_dir (f : Path) (dirs : List Path) : Bool :=
  dirs.any (fun d => d.isPrefixOf f)

/-- Python `f.stat().st_size` with the surrounding `try`: the entry's size when the
stat succeeds, `0` when the path is missing or the stat raises. -/
def statSize (fs : FS) (p : Path) : Nat :=
  match fs.find? (fun e => e.path == p) with
  | some e => if e.ok then e.size else 0
  | none => 0

/-- Python `shutil.rmtree(d)`: every entry at or below `d` disappears. -/
def removeTree (fs : FS) (d : Path) : FS :=
  fs.filter (fun e => !d.isPrefixOf e.path)

/-- Python `f.unlink()`: the entry at `f` disappears. -/
def removeFile (fs : FS) (p : Path) : FS :=
  fs.filter (fun e => e.path != p)

/-- The directory loop of `clean`: report each directory's size, and unless
in dry-run mode delete it, catching a failing deletion (`failDir d = true`)
as a warning and continuing with the remaining candidates. Returns the
final filesystem, the warned-about candidates, and the accumulated size. -/
def processDirs (dryRun : Bool) (failDir : Path → Bool) :
    FS → List Path → FS × List Path × Nat
  | fs, [] => (fs, [], 0)
  | fs, d :: rest =>
    let size := get_dir_size fs d
    if dryRun then
      let out := processDirs dryRun failDir fs rest
      (out.1, out.2.1, size + out.2.2)
    else if failDir d then
      let out := processDirs dryRun failDir fs rest
      (out.1, d :: out.2.1, size + out.2.2)
    else
      let out := processDirs dryRun failDir (removeTree fs d) rest
      (out.1, out.2.1, size + out.2.2)

/-- The file loop of `clean`: report each file's size (0 when the stat
raises), and unless in dry-run mode unlink it, catching a failing deletion
(`failFile f = true`) as a warning and continuing with the remaining
candidates. -/
def processFiles (dryRun : Bool) (failFile : Path → Bool) :
    FS → List Path → FS × List Path × Nat
  | fs, [] => (fs, [], 0)
  | fs, f :: rest =>
    let size := statSize fs f
    if dryRun then
      let out := processFiles dryRun failFile fs rest
      (out.1, out.2.1, size + out.2.2)
    else if failFile f then
      let out := processFiles dryRun failFile fs rest
      (out.1, f :: out.2.1, size + out.2.2)
    else
      let out := processFiles dryRun failFile (removeFile fs f) rest
      (out.1, out.2.1, size + out.2.2)

/-- The observable outcome of one run of `clean`: the filesystem afterwards,
the reported directory and file candidate lists, whether the run printed
"Already clean", the candidates whose deletion failed with a warning, and
the total byte count printed at the end. -/
structure CleanResult where
  fs : FS
  dirs : List Path
  files : List Path
  alreadyClean : Bool
  failedDirs : List Path
  failedFiles : List Path
  totalSize : Nat
deriving DecidableEq

/-- Function `clean`: compute the two candidate lists, drop files nested inside a
directory candidate, report "Already clean" when both lists are empty, and
otherwise process directories then files, deleting unless `dry_run` is set.
`failDir`/`failFile` say which individual deletions raise
`PermissionError`/`OSError`; the function is total, modelling that `clean`
always returns normally. -/
def clean (fs0 : FS) (root : Path) (dry_run include_venv : Bool)
    (failDir failFile : Path → Bool) : CleanResult :=
  let dirs := find_dirs_to_clean fs0 root include_venv
  let allFiles := find_files_to_clean fs0 root
  let files := allFiles.filter (fun f => !is_inside_any_dir f dirs)
  if dirs.isEmpty && files.isEmpty then
    ⟨fs0, dirs, files, true, [], [], 0⟩
  else
    let outD := processDirs dry_run failDir fs0 dirs
    let outF := processFiles dry_run failFile outD.1 files
    ⟨outF.1, dirs, files, false, outD.2.1, outF.2.1, outD.2.2 + outF.2.2⟩

theorem mem_rglob_iff {fs : FS} {root p : Path} {pat : String} :
    p ∈ rglob fs root pat ↔
      (∃ e ∈ fs, e.path = p) ∧ root.isPrefixOf p = true ∧ p ≠ root ∧
        globMatch pat (baseName p) = true := by
  simp only [rglob, List.mem_map, List.mem_filter, Bool.and_eq_true, bne_iff_ne, ne_eq]
  constructor
  · rintro ⟨e, ⟨he, ⟨⟨hpre, hne⟩, hglob⟩⟩, rfl⟩
    exact ⟨⟨e, he, rfl⟩, hpre, hne, hglob⟩
  · rintro ⟨⟨e, he, rfl⟩, hpre, hne, hglob⟩
    exact ⟨e, ⟨he, ⟨⟨hpre, hne⟩, hglob⟩⟩, rfl⟩

theorem mem_find_dirs_iff {fs : FS} {root p : Path} {iv : Bool} :
    p ∈ find_dirs_to_clean fs root iv ↔
      ((∃ pat ∈ DIRS_TO_CLEAN, p ∈ rglob fs root pat) ∨
        (iv = true ∧ fsHas fs (root ++ [".venv"]) = true ∧ p = root ++ [".venv"])) ∧
      should_preserve p = false ∧
      (iv = true ∨ p.contains ".venv" = false) ∧
      isDirIn fs p = true := by
  unfold find_dirs_to_clean
  split_ifs with hc
  · rw [Bool.and_eq_true] at hc
    simp only [mem_sortedDedup, List.mem_filter, List.mem_append, List.mem_singleton,
      Bool.and_eq_true, Bool.not_eq_true', Bool.or_eq_true, List.mem_flatMap]
    constructor
    · rintro ⟨hor, ⟨⟨hA, hB⟩, hC⟩⟩
      refine ⟨?_, hA, hB, hC⟩
      rcases hor with h | h
      · exact Or.inl h
      · exact Or.inr ⟨hc.1, hc.2, h⟩
    · rintro ⟨hor, hA, hB, hC⟩
      refine ⟨?_, ⟨hA, hB⟩, hC⟩
      rcases hor with h | h
      · exact Or.inl h
      · exact Or.inr h.2.2
  · rw [Bool.and_eq_true] at hc
    simp only [mem_sortedDedup, List.mem_filter, Bool.and_eq_true, Bool.not_eq_true',
      Bool.or_eq_true, List.mem_flatMap]
    constructor
    · rintro ⟨hin, ⟨⟨hA, hB⟩, hC⟩⟩
      exact ⟨Or.inl hin, hA, hB, hC⟩
    · rintro ⟨hor, hA, hB, hC⟩
      refine ⟨?_, ⟨hA, hB⟩, hC⟩
      rcases hor with h | h
      · exact h
      · exact absurd ⟨h.1, h.2.1⟩ hc

theorem mem_find_files_iff {fs : FS} {root p : Path} :
    p ∈ find_files_to_clean fs root ↔
      (∃ pat ∈ FILES_TO_CLEAN, p ∈ rglob fs root pat) ∧
      should_preserve p = false ∧
      p.contains ".venv" = false ∧
      isFileIn fs p = true := by
  unfold find_files_to_clean
  simp only [mem_sortedDedup, List.mem_filter, Bool.and_eq_true, Bool.not_eq_true',
    List.mem_flatMap]
  tauto

theorem baseName_concat (xs : List String) (x : String) :
    baseName (xs ++ [x]) = x := by
  simp [baseName, List.getLastD_concat]

theorem should_preserve_of_match {pat : String} {p : Path}
    (hpat : pat ∈ PRESERVE_PATTERNS)
    (hm : matchesPreserve pat (baseName p) = true) :
    should_preserve p = true := by
  simp only [should_preserve, List.any_eq_true]
  exact ⟨pat, hpat, hm⟩

/-- C1: a candidate whose base name matches some preservation pattern (under
the pattern's own match kind, as `should_preserve` tests it) is excluded from
the final directory deletion list and from the final file deletion list, for
every filesystem, root and flag value — in particular even when the
candidate also matches a cleanup pattern. -/
theorem preserve_patterns_exclude (pat : String) (p : Path) (fs : FS)
    (root : Path) (iv : Bool)
    (hpat : pat ∈ PRESERVE_PATTERNS)
    (hm : matchesPreserve pat (baseName p) = true) :
    p ∉ find_dirs_to_clean fs root iv ∧ p ∉ find_files_to_clean fs root := by
  have hsp := should_preserve_of_match hpat hm
  constructor
  · intro hmem
    have h := (mem_find_dirs_iff.mp hmem).2.1
    rw [hsp] at h
    cases h
  · intro hmem
    have h := (mem_find_files_iff.mp hmem).2.1
    rw [hsp] at h
    cases h

/-- Concrete filesystem used for the C1 witness: a `keep.local` directory and
a `.env` file sitting next to a matching cleanup candidate. -/
def preserveFS : FS :=
  [⟨["keep.local"], true, 0, true⟩,
   ⟨[".env"], false, 1, true⟩,
   ⟨["__pycache__"], true, 0, true⟩]

/-- Witness for C1 at a concrete input: `keep.local` matches the `*.local`
preservation pattern and is listed in neither deletion list. -/
theorem preserve_patterns_exclude_witness :
    ["keep.local"] ∉ find_dirs_to_clean preserveFS [] false ∧
      ["keep.local"] ∉ find_files_to_clean preserveFS [] :=
  preserve_patterns_exclude "*.local" ["keep.local"] preserveFS [] false
    (by decide) (by decide)

theorem contains_eq_false_iff {p : Path} {s : String} :
    p.contains s = false ↔ s ∉ p := by
  simp [List.contains]

theorem fsHas_of_isDirIn {fs : FS} {p : Path} (h : isDirIn fs p = true) :
    fsHas fs p = true := by
  simp only [isDirIn, fsHas, List.any_eq_true, Bool.and_eq_true, beq_iff_eq] at h ⊢
  obtain ⟨e, he, hpath, _⟩ := h
  exact ⟨e, he, hpath⟩

theorem should_preserve_venv (root : Path) :
    should_preserve (root ++ [".venv"]) = false := by
  unfold should_preserve
  rw [baseName_concat]
  decide

/-- Concrete filesystem used for C2: a `.venv` directory containing a
subdirectory and a bytecode file. -/
def venvFS : FS :=
  [⟨[".venv"], true, 0, true⟩,
   ⟨[".venv", "lib"], true, 0, true⟩,
   ⟨[".venv", "x.pyc"], false, 3, true⟩]

/-- Counterexample to C2 as stated: `.venv/x.pyc` is a raw file candidate
(`*.pyc` cleanup pattern, a regular file, not preserved), yet it is dropped
from the file candidate list even though the privileged inclusion flag is
set — `find_files_to_clean` takes no flag at all and always drops paths
containing `.venv`. -/
theorem venv_files_dropped_despite_flag :
    "*.pyc" ∈ FILES_TO_CLEAN ∧
    [".venv", "x.pyc"] ∈ rglob venvFS [] "*.pyc" ∧
    should_preserve [".venv", "x.pyc"] = false ∧
    isFileIn venvFS [".venv", "x.pyc"] = true ∧
    [".venv", "x.pyc"] ∉ find_files_to_clean venvFS [] := by decide

/-- C2 as amended: without the flag, any candidate containing `.venv` as a
component is dropped from both candidate lists; with the flag set, a raw
directory candidate is never dropped by the `.venv` rule (only preservation
and the directory check remain), and `root/.venv` itself is listed as a
directory candidate whenever it exists as a directory — but file candidates
under `.venv` are dropped regardless of the flag, which
`find_files_to_clean`'s lack of a flag parameter makes global. -/
theorem venv_protection (fs : FS) (root p : Path) :
    (".venv" ∈ p →
      p ∉ find_dirs_to_clean fs root false ∧ p ∉ find_files_to_clean fs root) ∧
    ((∃ pat ∈ DIRS_TO_CLEAN, p ∈ rglob fs root pat) → should_preserve p = false →
      isDirIn fs p = true → p ∈ find_dirs_to_clean fs root true) ∧
    (isDirIn fs (root ++ [".venv"]) = true →
      root ++ [".venv"] ∈ find_dirs_to_clean fs root true) := by
  refine ⟨fun hmem => ⟨fun hd => ?_, fun hf => ?_⟩, fun hin hpres hdir => ?_, fun hdir => ?_⟩
  · have h := (mem_find_dirs_iff.mp hd).2.2.1
    rcases h with h | h
    · cases h
    · exact contains_eq_false_iff.mp h hmem
  · have h := (mem_find_files_iff.mp hf).2.2.1
    exact contains_eq_false_iff.mp h hmem
  · exact mem_find_dirs_iff.mpr ⟨Or.inl hin, hpres, Or.inl rfl, hdir⟩
  · exact mem_find_dirs_iff.mpr
      ⟨Or.inr ⟨rfl, fsHas_of_isDirIn hdir, rfl⟩, should_preserve_venv root,
        Or.inl rfl, hdir⟩

/-- Witness for the amended C2 at a concrete input: without the flag nothing
about `.venv` is listed, and with the flag `.venv` itself is listed. -/
theorem venv_protection_witness :
    ([".venv", "lib"] ∉ find_dirs_to_clean venvFS [] false ∧
      [".venv", "lib"] ∉ find_files_to_clean venvFS []) ∧
    [".venv"] ∈ find_dirs_to_clean venvFS [] true :=
  ⟨(venv_protection venvFS [] [".venv", "lib"]).1 (by decide),
    (venv_protection venvFS [] ([] ++ [".venv"])).2.2 (by decide)⟩

theorem clean_dirs_eq (fs0 : FS) (root : Path) (dr iv : Bool)
    (fd ff : Path → Bool) :
    (clean fs0 root dr iv fd ff).dirs = find_dirs_to_clean fs0 root iv := by
  unfold clean
  dsimp only
  split <;> rfl

theorem clean_files_eq (fs0 : FS) (root : Path) (dr iv : Bool)
    (fd ff : Path → Bool) :
    (clean fs0 root dr iv fd ff).files =
      (find_files_to_clean fs0 root).filter
        (fun f => !is_inside_any_dir f (find_dirs_to_clean fs0 root iv)) := by
  unfold clean
  dsimp only
  split <;> rfl

/-- C3: a file candidate whose path lies under a directory candidate of the
same run does not appear in the run's reported file list. -/
theorem nested_files_not_listed (fs0 : FS) (root : Path) (dr iv : Bool)
    (fd ff : Path → Bool) (d f : Path)
    (hd : d ∈ (clean fs0 root dr iv fd ff).dirs)
    (hpre : d.isPrefixOf f = true) :
    f ∉ (clean fs0 root dr iv fd ff).files := by
  intro hf
  rw [clean_files_eq] at hf
  rw [clean_dirs_eq] at hd
  have h1 := (List.mem_filter.mp hf).2
  rw [Bool.not_eq_true'] at h1
  have h2 : is_inside_any_dir f (find_dirs_to_clean fs0 root iv) = true := by
    simp only [is_inside_any_dir, List.any_eq_true]
    exact ⟨d, hd, hpre⟩
  rw [h1] at h2
  cases h2

/-- Concrete filesystem used for the C3 witness: a `__pycache__` directory
with a bytecode file inside it. -/
def nestedFS : FS :=
  [⟨["__pycache__"], true, 0, true⟩,
   ⟨["__pycache__", "a.pyc"], false, 3, true⟩]

/-- Witness for C3 at a concrete input: the file inside the listed
`__pycache__` directory candidate is absent from the reported file list. -/
theorem nested_files_not_listed_witness :
    ["__pycache__", "a.pyc"] ∉
      (clean nestedFS [] false false (fun _ => false) (fun _ => false)).files :=
  nested_files_not_listed nestedFS [] false false (fun _ => false) (fun _ => false)
    ["__pycache__"] ["__pycache__", "a.pyc"] (by decide) (by decide)

theorem processDirs_dryRun_fs (fd : Path → Bool) (ds : List Path) (fs : FS) :
    (processDirs true fd fs ds).1 = fs := by
  induction ds generalizing fs with
  | nil => rfl
  | cons d rest ih => simp [processDirs, ih]

theorem processFiles_dryRun_fs (ff : Path → Bool) (fsList : List Path) (fs : FS) :
    (processFiles true ff fs fsList).1 = fs := by
  induction fsList generalizing fs with
  | nil => rfl
  | cons f rest ih => simp [processFiles, ih]

/-- C4: with the preview flag set, one run of the clean operation leaves the
filesystem exactly as it was, for every root, flag combination and failure
pattern: no directory removal and no file unlink happens. -/
theorem dry_run_no_mutation (fs : FS) (root : Path) (iv : Bool)
    (fd ff : Path → Bool) :
    (clean fs root true iv fd ff).fs = fs := by
  unfold clean
  dsimp only
  split
  · rfl
  · rw [processFiles_dryRun_fs, processDirs_dryRun_fs]

theorem processDirs_fs_subset {fd : Path → Bool} {dr : Bool} {ds : List Path}
    {fs : FS} {e : FSEntry} (he : e ∈ (processDirs dr fd fs ds).1) : e ∈ fs := by
  induction ds generalizing fs with
  | nil => exact he
  | cons d rest ih =>
    rw [processDirs] at he
    split_ifs at he with h1 h2
    · exact ih he
    · exact ih he
    · have h := ih he
      simp only [removeTree, List.mem_filter] at h
      exact h.1

theorem processFiles_fs_subset {ff : Path → Bool} {dr : Bool} {fsList : List Path}
    {fs : FS} {e : FSEntry} (he : e ∈ (processFiles dr ff fs fsList).1) : e ∈ fs := by
  induction fsList generalizing fs with
  | nil => exact he
  | cons f rest ih =>
    rw [processFiles] at he
    split_ifs at he with h1 h2
    · exact ih he
    · exact ih he
    · have h := ih he
      simp only [removeFile, List.mem_filter] at h
      exact h.1

theorem processDirs_warns {fd : Path → Bool} {ds : List Path} {fs : FS} {d : Path}
    (hd : d ∈ ds) (hfail : fd d = true) :
    d ∈ (processDirs false fd fs ds).2.1 := by
  induction ds generalizing fs with
  | nil => cases hd
  | cons d0 rest ih =>
    rcases List.mem_cons.mp hd with rfl | hmem
    · simp [processDirs, hfail]
    · by_cases h0 : fd d0 = true
      · simp only [processDirs, h0, Bool.false_eq_true, if_false, if_true]
        exact List.mem_cons_of_mem _ (ih hmem)
      · simp only [processDirs, h0, Bool.false_eq_true, if_false]
        exact ih hmem

theorem processFiles_warns {ff : Path → Bool} {fsList : List Path} {fs : FS} {f : Path}
    (hf : f ∈ fsList) (hfail : ff f = true) :
    f ∈ (processFiles false ff fs fsList).2.1 := by
  induction fsList generalizing fs with
  | nil => cases hf
  | cons f0 rest ih =>
    rcases List.mem_cons.mp hf with rfl | hmem
    · simp [processFiles, hfail]
    · by_cases h0 : ff f0 = true
      · simp only [processFiles, h0, Bool.false_eq_true, if_false, if_true]
        exact List.mem_cons_of_mem _ (ih hmem)
      · simp only [processFiles, h0, Bool.false_eq_true, if_false]
        exact ih hmem

theorem processDirs_deletes {fd : Path → Bool} {ds : List Path} {fs : FS} {d : Path}
    (hd : d ∈ ds) (hfail : fd d = false) :
    ∀ e ∈ (processDirs false fd fs ds).1, ¬ (d.isPrefixOf e.path = true) := by
  induction ds generalizing fs with
  | nil => cases hd
  | cons d0 rest ih =>
    intro e he hpre
    rcases List.mem_cons.mp hd with rfl | hmem
    · simp only [processDirs, hfail, Bool.false_eq_true, if_false] at he
      have h := processDirs_fs_subset he
      simp [removeTree, List.mem_filter, hpre] at h
    · by_cases h0 : fd d0 = true
      · simp only [processDirs, h0, Bool.false_eq_true, if_false, if_true] at he
        exact ih hmem e he hpre
      · simp only [processDirs, h0, Bool.false_eq_true, if_false] at he
        exact ih hmem e he hpre

theorem processFiles_deletes {ff : Path → Bool} {fsList : List Path} {fs : FS} {f : Path}
    (hf : f ∈ fsList) (hfail : ff f = false) :
    ∀ e ∈ (processFiles false ff fs fsList).1, e.path ≠ f := by
  induction fsList generalizing fs with
  | nil => cases hf
  | cons f0 rest ih =>
    intro e he hpath
    rcases List.mem_cons.mp hf with rfl | hmem
    · simp only [processFiles, hfail, Bool.false_eq_true, if_false] at he
      have h := processFiles_fs_subset he
      simp [removeFile, List.mem_filter, hpath] at h
    · by_cases h0 : ff f0 = true
      · simp only [processFiles, h0, Bool.false_eq_true, if_false, if_true] at he
        exact ih hmem e he hpath
      · simp only [processFiles, h0, Bool.false_eq_true, if_false] at he
        exact ih hmem e he hpath

theorem clean_fs_subset {fs0 : FS} {root : Path} {dr iv : Bool}
    {fd ff : Path → Bool} {e : FSEntry}
    (he : e ∈ (clean fs0 root dr iv fd ff).fs) : e ∈ fs0 := by
  rw [clean] at he
  dsimp only at he
  split at he
  · exact he
  · exact processDirs_fs_subset (processFiles_fs_subset he)

theorem clean_warns_dirs {fs0 : FS} {root : Path} {iv : Bool}
    {fd ff : Path → Bool} {d : Path}
    (hd : d ∈ (clean fs0 root false iv fd ff).dirs) (hfail : fd d = true) :
    d ∈ (clean fs0 root false iv fd ff).failedDirs := by
  rw [clean] at hd ⊢
  dsimp only at hd ⊢
  split at hd
  · rename_i h
    rw [Bool.and_eq_true] at h
    dsimp only at hd
    rw [List.isEmpty_iff.mp h.1] at hd
    cases hd
  · rename_i h
    rw [if_neg h]
    exact processDirs_warns hd hfail

theorem clean_warns_files {fs0 : FS} {root : Path} {iv : Bool}
    {fd ff : Path → Bool} {f : Path}
    (hf : f ∈ (clean fs0 root false iv fd ff).files) (hfail : ff f = true) :
    f ∈ (clean fs0 root false iv fd ff).failedFiles := by
  rw [clean] at hf ⊢
  dsimp only at hf ⊢
  split at hf
  · rename_i h
    rw [Bool.and_eq_true] at h
    dsimp only at hf
    rw [List.isEmpty_iff.mp h.2] at hf
    cases hf
  · rename_i h
    rw [if_neg h]
    exact processFiles_warns hf hfail

theorem clean_deletes_dirs {fs0 : FS} {root : Path} {iv : Bool}
    {fd ff : Path → Bool} {d : Path}
    (hd : d ∈ (clean fs0 root false iv fd ff).dirs) (hok : fd d = false) :
    ∀ e ∈ (clean fs0 root false iv fd ff).fs, d.isPrefixOf e.path = false := by
  intro e he
  rw [clean] at hd he
  dsimp only at hd he
  split at hd
  · rename_i h
    rw [Bool.and_eq_true] at h
    dsimp only at hd
    rw [List.isEmpty_iff.mp h.1] at hd
    cases hd
  · rename_i h
    rw [if_neg h] at he
    dsimp only at hd he
    have := processDirs_deletes hd hok e (processFiles_fs_subset he)
    exact Bool.not_eq_true _ |>.mp this

theorem clean_deletes_files {fs0 : FS} {root : Path} {iv : Bool}
    {fd ff : Path → Bool} {f : Path}
    (hf : f ∈ (clean fs0 root false iv fd ff).files) (hok : ff f = false) :
    ∀ e ∈ (clean fs0 root false iv fd ff).fs, e.path ≠ f := by
  intro e he
  rw [clean] at hf he
  dsimp only at hf he
  split at hf
  · rename_i h
    rw [Bool.and_eq_true] at h
    dsimp only at hf
    rw [List.isEmpty_iff.mp h.2] at hf
    cases hf
  · rename_i h
    rw [if_neg h] at he
    dsimp only at hf he
    exact processFiles_deletes hf hok e he

/-- C5: in a non-preview run, a candidate whose deletion raises is recorded
as a warning while processing continues through every remaining candidate —
every candidate whose deletion does not raise is actually removed from the
filesystem — and the operation, modelled as a total function, returns its
result normally no matter which deletions fail. -/
theorem deletion_failures_do_not_abort (fs : FS) (root : Path) (iv : Bool)
    (fd ff : Path → Bool) :
    (∀ d ∈ (clean fs root false iv fd ff).dirs, fd d = true →
      d ∈ (clean fs root false iv fd ff).failedDirs) ∧
    (∀ d ∈ (clean fs root false iv fd ff).dirs, fd d = false →
      ∀ e ∈ (clean fs root false iv fd ff).fs, d.isPrefixOf e.path = false) ∧
    (∀ f ∈ (clean fs root false iv fd ff).files, ff f = true →
      f ∈ (clean fs root false iv fd ff).failedFiles) ∧
    (∀ f ∈ (clean fs root false iv fd ff).files, ff f = false →
      ∀ e ∈ (clean fs root false iv fd ff).fs, e.path ≠ f) :=
  ⟨fun _ hd hfail => clean_warns_dirs hd hfail,
   fun _ hd hok => clean_deletes_dirs hd hok,
   fun _ hf hfail => clean_warns_files hf hfail,
   fun _ hf hok => clean_deletes_files hf hok⟩

/-- Concrete filesystem used for the C5 witness: two directory candidates,
of which the deletion of `build` fails. -/
def failFS : FS :=
  [⟨["build"], true, 0, true⟩, ⟨["dist"], true, 0, true⟩]

/-- Witness for C5 at a concrete input: the failing `build` deletion is
warned about, and the run still deleted the later `dist` candidate. -/
theorem deletion_failures_do_not_abort_witness :
    ["build"] ∈ (clean failFS [] false false (fun p => p == ["build"])
      (fun _ => false)).failedDirs ∧
    (∀ e ∈ (clean failFS [] false false (fun p => p == ["build"])
      (fun _ => false)).fs, List.isPrefixOf ["dist"] e.path = false) :=
  ⟨(deletion_failures_do_not_abort failFS [] false (fun p => p == ["build"])
      (fun _ => false)).1 ["build"] (by decide) (by decide),
   (deletion_failures_do_not_abort failFS [] false (fun p => p == ["build"])
      (fun _ => false)).2.1 ["dist"] (by decide) (by decide)⟩

theorem isDirIn_mono {fs fs0 : FS} {p : Path} (hsub : ∀ e ∈ fs, e ∈ fs0)
    (h : isDirIn fs p = true) : isDirIn fs0 p = true := by
  simp only [isDirIn, List.any_eq_true] at h ⊢
  obtain ⟨e, he, hc⟩ := h
  exact ⟨e, hsub e he, hc⟩

theorem isFileIn_mono {fs fs0 : FS} {p : Path} (hsub : ∀ e ∈ fs, e ∈ fs0)
    (h : isFileIn fs p = true) : isFileIn fs0 p = true := by
  simp only [isFileIn, List.any_eq_true] at h ⊢
  obtain ⟨e, he, hc⟩ := h
  exact ⟨e, hsub e he, hc⟩

theorem exists_entry_of_isDirIn {fs : FS} {p : Path} (h : isDirIn fs p = true) :
    ∃ e ∈ fs, e.path = p := by
  simp only [isDirIn, List.any_eq_true, Bool.and_eq_true, beq_iff_eq] at h
  obtain ⟨e, he, h1, _⟩ := h
  exact ⟨e, he, h1⟩

theorem exists_entry_of_isFileIn {fs : FS} {p : Path} (h : isFileIn fs p = true) :
    ∃ e ∈ fs, e.path = p := by
  simp only [isFileIn, List.any_eq_true, Bool.and_eq_true, beq_iff_eq] at h
  obtain ⟨e, he, h1, _⟩ := h
  exact ⟨e, he, h1⟩

theorem isPrefixOf_self (p : Path) : p.isPrefixOf p = true :=
  List.isPrefixOf_iff_prefix.mpr List.prefix_rfl

/-- C8: when a default run (no flags) completes with every deletion
succeeding — modelled by the all-false failure oracles — an immediately
following default run finds an empty directory candidate list and an empty
file candidate list, and therefore reports that the project is already
clean. -/
theorem clean_idempotent (fs : FS) (root : Path) (fd2 ff2 : Path → Bool) :
    find_dirs_to_clean
      (clean fs root false false (fun _ => false) (fun _ => false)).fs root false = [] ∧
    find_files_to_clean
      (clean fs root false false (fun _ => false) (fun _ => false)).fs root = [] ∧
    (clean (clean fs root false false (fun _ => false) (fun _ => false)).fs
      root false false fd2 ff2).alreadyClean = true := by
  have hsub : ∀ e ∈ (clean fs root false false (fun _ => false) (fun _ => false)).fs,
      e ∈ fs := fun e he => clean_fs_subset he
  have hdirs : find_dirs_to_clean
      (clean fs root false false (fun _ => false) (fun _ => false)).fs root false = [] := by
    rw [List.eq_nil_iff_forall_not_mem]
    intro p hp
    obtain ⟨hraw, hpres, hvenv, hdir⟩ := mem_find_dirs_iff.mp hp
    rcases hraw with ⟨pat, hpat, hglob⟩ | ⟨hfalse, -, -⟩
    · obtain ⟨⟨e, heR, hepath⟩, hpre, hne, hgm⟩ := mem_rglob_iff.mp hglob
      have hp0 : p ∈ find_dirs_to_clean fs root false :=
        mem_find_dirs_iff.mpr
          ⟨Or.inl ⟨pat, hpat, mem_rglob_iff.mpr ⟨⟨e, hsub e heR, hepath⟩, hpre, hne, hgm⟩⟩,
            hpres, hvenv, isDirIn_mono hsub hdir⟩
      have hd : p ∈ (clean fs root false false (fun _ => false) (fun _ => false)).dirs := by
        rw [clean_dirs_eq]
        exact hp0
      obtain ⟨e2, he2, he2path⟩ := exists_entry_of_isDirIn hdir
      have := clean_deletes_dirs hd rfl e2 he2
      rw [he2path, isPrefixOf_self] at this
      cases this
    · cases hfalse
  have hfiles : find_files_to_clean
      (clean fs root false false (fun _ => false) (fun _ => false)).fs root = [] := by
    rw [List.eq_nil_iff_forall_not_mem]
    intro p hp
    obtain ⟨⟨pat, hpat, hglob⟩, hpres, hvenv, hfile⟩ := mem_find_files_iff.mp hp
    obtain ⟨⟨e, heR, hepath⟩, hpre, hne, hgm⟩ := mem_rglob_iff.mp hglob
    have hp0 : p ∈ find_files_to_clean fs root :=
      mem_find_files_iff.mpr
        ⟨⟨pat, hpat, mem_rglob_iff.mpr ⟨⟨e, hsub e heR, hepath⟩, hpre, hne, hgm⟩⟩,
          hpres, hvenv, isFileIn_mono hsub hfile⟩
    obtain ⟨e2, he2, he2path⟩ := exists_entry_of_isFileIn hfile
    by_cases hin : is_inside_any_dir p (find_dirs_to_clean fs root false) = true
    · obtain ⟨d, hdmem, hdpre⟩ := by
        simpa only [is_inside_any_dir, List.any_eq_true] using hin
      have hd : d ∈ (clean fs root false false (fun _ => false) (fun _ => false)).dirs := by
        rw [clean_dirs_eq]
        exact hdmem
      have := clean_deletes_dirs hd rfl e2 he2
      rw [he2path] at this
      rw [this] at hdpre
      cases hdpre
    · have hpf : p ∈ (clean fs root false false (fun _ => false) (fun _ => false)).files := by
        rw [clean_files_eq]
        refine List.mem_filter.mpr ⟨hp0, ?_⟩
        rw [Bool.not_eq_true] at hin
        rw [hin]
        rfl
      exact clean_deletes_files hpf rfl e2 he2 he2path
  refine ⟨hdirs, hfiles, ?_⟩
  rw [clean]
  dsimp only
  rw [hdirs, hfiles]
  rfl

/-- Formal reading of the C6 claim at one input: `format_size n` renders `n`
scaled into the unit reached by successively dividing by `1024` while the
value is still at least `1024` — so the rendered scaled value is below
`1024` and every smaller unit had a value of at least `1024` — with one
decimal place followed by the unit. -/
def formatSizeClaim (n : Nat) : Prop :=
  ∃ k, k ≤ 4 ∧ n < 1024 ^ (k + 1) ∧ (∀ j, j < k → 1024 ^ (j + 1) ≤ n) ∧
    format_size n = renderScaled n k ++ (" " ++ unitName k)

/-- Counterexample to C6 as stated: at `n = 1024 ^ 5` no unit in
`{B, KB, MB, GB, TB}` scales `n` below `1024` — the code still renders
`"1024.0 TB"` — so the claimed unit-selection property fails there. -/
theorem format_size_claim_fails_at_tb_overflow : ¬ formatSizeClaim (1024 ^ 5) := by
  rintro ⟨k, hk, hlt, -, -⟩
  have h : (1024 : ℕ) ^ (k + 1) ≤ 1024 ^ 5 :=
    Nat.pow_le_pow_right (by norm_num) (by omega)
  exact absurd (Nat.lt_of_lt_of_le hlt h) (lt_irrefl _)

/-- C6 as amended: for byte counts below `1024 ^ 5` the rendered unit is the
one reached by successive division with its scaled value below `1024`; from
`1024 ^ 5` on the value is rendered in `TB` even though the TB-scaled value
is at least `1024`. -/
theorem format_size_unit_selection (n : Nat) :
    (n < 1024 ^ 5 → formatSizeClaim n) ∧
    (1024 ^ 5 ≤ n → format_size n = renderScaled n 4 ++ (" " ++ unitName 4)) := by
  have e1 : (1024 : ℕ) ^ 1 = 1024 := by norm_num
  constructor
  · intro h5
    by_cases h0 : n < 1024
    · refine ⟨0, by omega, by simpa using h0, fun j hj => absurd hj (by omega), ?_⟩
      rw [format_size, if_pos h0]
      rfl
    by_cases h1 : n < 1024 ^ 2
    · refine ⟨1, by omega, h1, fun j hj => ?_, ?_⟩
      · have hj0 : j = 0 := by omega
        subst hj0
        rw [e1]
        exact Nat.le_of_not_lt h0
      · rw [format_size, if_neg h0, if_pos h1]
        rfl
    by_cases h2 : n < 1024 ^ 3
    · refine ⟨2, by omega, h2, fun j hj => ?_, ?_⟩
      · have hj01 : j = 0 ∨ j = 1 := by omega
        rcases hj01 with rfl | rfl
        · rw [e1]; exact Nat.le_of_not_lt h0
        · exact Nat.le_of_not_lt h1
      · rw [format_size, if_neg h0, if_neg h1, if_pos h2]
        rfl
    by_cases h3 : n < 1024 ^ 4
    · refine ⟨3, by omega, h3, fun j hj => ?_, ?_⟩
      · have hj : j = 0 ∨ j = 1 ∨ j = 2 := by omega
        rcases hj with rfl | rfl | rfl
        · rw [e1]; exact Nat.le_of_not_lt h0
        · exact Nat.le_of_not_lt h1
        · exact Nat.le_of_not_lt h2
      · rw [format_size, if_neg h0, if_neg h1, if_neg h2, if_pos h3]
        rfl
    · refine ⟨4, by omega, h5, fun j hj => ?_, ?_⟩
      · have hj : j = 0 ∨ j = 1 ∨ j = 2 ∨ j = 3 := by omega
        rcases hj with rfl | rfl | rfl | rfl
        · rw [e1]; exact Nat.le_of_not_lt h0
        · exact Nat.le_of_not_lt h1
        · exact Nat.le_of_not_lt h2
        · exact Nat.le_of_not_lt h3
      · rw [format_size, if_neg h0, if_neg h1, if_neg h2, if_neg h3]
        rfl
  · intro h5
    have g4 : ¬ n < 1024 ^ 4 := by
      intro h
      have : (1024 : ℕ) ^ 4 ≤ 1024 ^ 5 := Nat.pow_le_pow_right (by norm_num) (by omega)
      omega
    have g3 : ¬ n < 1024 ^ 3 := by
      intro h
      have : (1024 : ℕ) ^ 3 ≤ 1024 ^ 4 := Nat.pow_le_pow_right (by norm_num) (by omega)
      omega
    have g2 : ¬ n < 1024 ^ 2 := by
      intro h
      have : (1024 : ℕ) ^ 2 ≤ 1024 ^ 3 := Nat.pow_le_pow_right (by norm_num) (by omega)
      omega
    have g1 : ¬ n < 1024 := by
      intro h
      have : (1024 : ℕ) ≤ 1024 ^ 2 := by norm_num
      omega
    rw [format_size, if_neg g1, if_neg g2, if_neg g3, if_neg g4]
    rfl

/-- Witness for the amended C6 at a concrete input: `2048` bytes. -/
theorem format_size_unit_selection_witness : formatSizeClaim 2048 :=
  (format_size_unit_selection 2048).1 (by norm_num)

/-- Sum of the sizes of the readable regular files strictly below `p`, the
quantity the C7 claim says `get_dir_size` reports: unreadable entries are
skipped individually and every readable regular file still counts. -/
def sumReadableFiles (fs : FS) (p : Path) : Nat :=
  ((fs.filter (fun e => p.isPrefixOf e.path && e.path != p && !e.isDir && e.ok)).map
    (fun e => e.size)).sum

/-- Concrete filesystem used for C7: under directory `d`, an unreadable
5-byte file is scanned before a readable 7-byte file. -/
def badScanFS : FS :=
  [⟨["d"], true, 0, true⟩,
   ⟨["d", "bad"], false, 5, false⟩,
   ⟨["d", "good"], false, 7, true⟩]

/-- Counterexample to C7 as stated: the unreadable entry aborts the whole
scan (the `try` wraps the loop), so the readable 7-byte file after it is not
counted and the reported size is `0`, not the claimed sum `7`. -/
theorem get_dir_size_not_sum_of_readable :
    get_dir_size badScanFS ["d"] = 0 ∧
    sumReadableFiles badScanFS ["d"] = 7 ∧
    get_dir_size badScanFS ["d"] ≠ sumReadableFiles badScanFS ["d"] := by decide

/-- Portion of the traversal that `get_dir_size`'s loop actually visits: the
scan stops at the first entry below `p` whose handling raises. -/
def scanUntilError (p : Path) : FS → FS
  | [] => []
  | e :: rest =>
    if p.isPrefixOf e.path && e.path != p && !e.ok then []
    else e :: scanUntilError p rest

theorem get_dir_size_go_eq (p : Path) (fs : FS) : ∀ total : Nat,
    get_dir_size_go p fs total = total + sumReadableFiles (scanUntilError p fs) p := by
  induction fs with
  | nil => intro total; simp [get_dir_size_go, scanUntilError, sumReadableFiles]
  | cons e rest ih =>
    intro total
    by_cases ca : p.isPrefixOf e.path = true
    case neg =>
      rw [Bool.not_eq_true] at ca
      simp [get_dir_size_go, scanUntilError, sumReadableFiles, List.filter_cons, ca, ih]
    by_cases cb : e.path = p
    case pos =>
      have hbne : (e.path != p) = false := by simp [cb]
      simp [get_dir_size_go, scanUntilError, sumReadableFiles, List.filter_cons,
        ca, hbne, ih]
    have hbne : (e.path != p) = true := by simp [cb]
    by_cases c2 : e.ok = true
    case neg =>
      rw [Bool.not_eq_true] at c2
      simp [get_dir_size_go, scanUntilError, sumReadableFiles, List.filter_cons,
        ca, hbne, c2]
    by_cases c3 : e.isDir = true
    · simp [get_dir_size_go, scanUntilError, sumReadableFiles, List.filter_cons,
        ca, hbne, c2, c3, ih]
    · rw [Bool.not_eq_true] at c3
      simp [get_dir_size_go, scanUntilError, sumReadableFiles, List.filter_cons,
        ca, hbne, c2, c3, ih]
      omega

/-- C7 as amended: the reported directory size is the sum of the sizes of the
readable regular files scanned before the first entry below the directory
whose handling raises; because the exception aborts the whole loop, entries
after that point are not counted. -/
theorem get_dir_size_prefix_of_scan (fs : FS) (p : Path) :
    get_dir_size fs p = sumReadableFiles (scanUntilError p fs) p := by
  rw [get_dir_size, get_dir_size_go_eq]
  omega

theorem sortedDedup_perm_eq {xs ys : List Path} (h : xs.Perm ys) :
    sortedDedup xs = sortedDedup ys :=
  @List.eq_of_perm_of_sorted Path pathLeR pathLeIsAntisymm _ _
    ((List.perm_insertionSort pathLeR xs.dedup).trans
      (h.dedup.trans (List.perm_insertionSort pathLeR ys.dedup).symm))
    (List.sorted_insertionSort pathLeR xs.dedup)
    (List.sorted_insertionSort pathLeR ys.dedup)

theorem rglob_perm {fs fs' : FS} (h : fs.Perm fs') (root : Path) (pat : String) :
    (rglob fs root pat).Perm (rglob fs' root pat) :=
  (h.filter _).map _

theorem flatMap_rglob_perm {fs fs' : FS} (h : fs.Perm fs') (root : Path)
    (pats : List String) :
    (pats.flatMap (fun pat => rglob fs root pat)).Perm
      (pats.flatMap (fun pat => rglob fs' root pat)) := by
  induction pats with
  | nil => rfl
  | cons pat rest ih =>
    simpa only [List.flatMap_cons] using (rglob_perm h root pat).append ih

theorem fsHas_perm {fs fs' : FS} (h : fs.Perm fs') (p : Path) :
    fsHas fs p = fsHas fs' p := by
  apply Bool.eq_iff_iff.mpr
  simp only [fsHas, List.any_eq_true]
  exact ⟨fun ⟨e, he, hc⟩ => ⟨e, h.mem_iff.mp he, hc⟩,
    fun ⟨e, he, hc⟩ => ⟨e, h.mem_iff.mpr he, hc⟩⟩

theorem isDirIn_perm {fs fs' : FS} (h : fs.Perm fs') (p : Path) :
    isDirIn fs p = isDirIn fs' p := by
  apply Bool.eq_iff_iff.mpr
  simp only [isDirIn, List.any_eq_true]
  exact ⟨fun ⟨e, he, hc⟩ => ⟨e, h.mem_iff.mp he, hc⟩,
    fun ⟨e, he, hc⟩ => ⟨e, h.mem_iff.mpr he, hc⟩⟩

theorem isFileIn_perm {fs fs' : FS} (h : fs.Perm fs') (p : Path) :
    isFileIn fs p = isFileIn fs' p := by
  apply Bool.eq_iff_iff.mpr
  simp only [isFileIn, List.any_eq_true]
  exact ⟨fun ⟨e, he, hc⟩ => ⟨e, h.mem_iff.mp he, hc⟩,
    fun ⟨e, he, hc⟩ => ⟨e, h.mem_iff.mpr he, hc⟩⟩

theorem find_dirs_perm_eq {fs fs' : FS} (h : fs.Perm fs') (root : Path) (iv : Bool) :
    find_dirs_to_clean fs root iv = find_dirs_to_clean fs' root iv := by
  unfold find_dirs_to_clean
  have hpred : (fun d => !should_preserve d &&
        (iv || !d.contains ".venv") && isDirIn fs d) =
      (fun d => !should_preserve d && (iv || !d.contains ".venv") && isDirIn fs' d) :=
    funext fun d => by rw [isDirIn_perm h]
  rw [fsHas_perm h, hpred]
  apply sortedDedup_perm_eq
  apply List.Perm.filter
  split
  · exact (flatMap_rglob_perm h root DIRS_TO_CLEAN).append (List.Perm.refl _)
  · exact flatMap_rglob_perm h root DIRS_TO_CLEAN

theorem find_files_perm_eq {fs fs' : FS} (h : fs.Perm fs') (root : Path) :
    find_files_to_clean fs root = find_files_to_clean fs' root := by
  unfold find_files_to_clean
  have hpred : (fun f => !should_preserve f && !f.contains ".venv" && isFileIn fs f) =
      (fun f => !should_preserve f && !f.contains ".venv" && isFileIn fs' f) :=
    funext fun f => by rw [isFileIn_perm h]
  rw [hpred]
  exact sortedDedup_perm_eq ((flatMap_rglob_perm h root FILES_TO_CLEAN).filter _)

/-- C9: both candidate lists are strictly sorted in the path order (hence
duplicate-free, even when several cleanup patterns produce the same path),
and they are invariant under reordering of the filesystem traversal, so the
reported candidate order is deterministic. -/
theorem candidate_lists_canonical (fs fs' : FS) (root : Path) (iv : Bool)
    (hperm : fs.Perm fs') :
    (find_dirs_to_clean fs root iv).Pairwise (fun p q => pathLt p q = true) ∧
    (find_files_to_clean fs root).Pairwise (fun p q => pathLt p q = true) ∧
    find_dirs_to_clean fs root iv = find_dirs_to_clean fs' root iv ∧
    find_files_to_clean fs root = find_files_to_clean fs' root :=
  ⟨sortedDedup_pairwise_lt _, sortedDedup_pairwise_lt _,
    find_dirs_perm_eq hperm root iv, find_files_perm_eq hperm root⟩

/-- Concrete filesystems used for the C9 witness: the same two entries in the
two possible traversal orders. -/
def permFS1 : FS := [⟨["build"], true, 0, true⟩, ⟨["dist"], true, 0, true⟩]

/-- Second traversal order of the entries of `permFS1`. -/
def permFS2 : FS := [⟨["dist"], true, 0, true⟩, ⟨["build"], true, 0, true⟩]

/-- Witness for C9 at a concrete input: sorted duplicate-free lists, equal
across the two traversal orders. -/
theorem candidate_lists_canonical_witness :
    (find_dirs_to_clean permFS1 [] false).Pairwise (fun p q => pathLt p q = true) ∧
    (find_files_to_clean permFS1 []).Pairwise (fun p q => pathLt p q = true) ∧
    find_dirs_to_clean permFS1 [] false = find_dirs_to_clean permFS2 [] false ∧
    find_files_to_clean permFS1 [] = find_files_to_clean permFS2 [] :=
  candidate_lists_canonical permFS1 permFS2 [] false
    (by
      show List.Perm
        [(⟨["build"], true, 0, true⟩ : FSEntry), ⟨["dist"], true, 0, true⟩]
        [⟨["dist"], true, 0, true⟩, ⟨["build"], true, 0, true⟩]
      exact List.Perm.swap _ _ _)

end CleanScript

namespace InMemoryRepository

/-!
Embedding of `InMemoryRepository`. The stored mapping (`self._storage`,
a Python dict keyed by entity id) is modelled as a function `ID → Option T`;
an entity is a value of an arbitrary type `T` together with a projection
`getId : T → Option ID` modelling `hasattr(entity, "id")` /`entity.id`
(`none` means the attribute is absent). A method that may raise returns the
storage it leaves behind together with an `Except` outcome. -/

/-- The dict `self._storage`. -/
def Storage (ID T : Type) := ID → Option T

/-- Message of the `ValueError` raised when the entity has no `id`
attribute. -/
def missingIdMessage : String :=
  "Entity does not have an id attribute. Override _get_entity_id() to handle custom ID extraction."

/-- Method `_get_entity_id`: the entity's `id` attribute, or a raised `ValueError`
when the attribute is absent. -/
def getEntityId {T ID : Type} (getId : T → Option ID) (e : T) : Except String ID :=
  match getId e with
  | some i => Except.ok i
  | none => Except.error missingIdMessage

/-- Method `save`: store the entity under its id and return it; a `ValueError` from
`_get_entity_id` propagates before the dict is touched, so the storage is
returned unchanged in that case. -/
def save {T ID : Type} [DecidableEq ID] (getId : T → Option ID)
    (st : Storage ID T) (e : T) : Storage ID T × Except String T :=
  match getEntityId getId e with
  | Except.ok i => (fun j => if j = i then some e else st j, Except.ok e)
  | Except.error m => (st, Except.error m)

/-- Method `find_by_id`: `self._storage.get(entity_id)`. -/
def find_by_id {T ID : Type} (st : Storage ID T) (i : ID) : Option T := st i

/-- Method `exists`: `entity_id in self._storage`. -/
def existsId {T ID : Type} (st : Storage ID T) (i : ID) : Bool := (st i).isSome

/-- C10: saving an entity without an `id` attribute raises `ValueError` and
leaves the stored mapping unchanged; saving an entity with id `i` stores it
under `i` and returns it, so `find_by_id i` then yields the entity,
`exists i` holds, and the entry under every other id is unchanged. -/
theorem save_spec {T ID : Type} [DecidableEq ID] (getId : T → Option ID)
    (st : Storage ID T) (e : T) :
    (getId e = none → save getId st e = (st, Except.error missingIdMessage)) ∧
    (∀ i, getId e = some i →
      (save getId st e).2 = Except.ok e ∧
      find_by_id (save getId st e).1 i = some e ∧
      existsId (save getId st e).1 i = true ∧
      ∀ j, j ≠ i → (save getId st e).1 j = st j) := by
  constructor
  · intro h
    simp [save, getEntityId, h]
  · intro i h
    have hsave : save getId st e =
        (fun j => if j = i then some e else st j, Except.ok e) := by
      simp [save, getEntityId, h]
    rw [hsave]
    refine ⟨rfl, ?_, ?_, fun j hj => ?_⟩
    · simp [find_by_id]
    · simp [existsId]
    · simp only []
      rw [if_neg hj]

/-- Storage holding nothing, for the C10 witness. -/
def emptyStorage : Storage Nat (Option Nat) := fun _ => none

/-- Witness for C10 at concrete inputs: entities are optional naturals whose
id is the value itself when present; saving `some 5` makes it retrievable
under id `5`, and saving `none` errors with the storage unchanged. -/
theorem save_spec_witness :
    find_by_id ((save (fun e => e) emptyStorage (some 5)).1) 5 = some (some 5) ∧
    existsId ((save (fun e => e) emptyStorage (some 5)).1) 5 = true ∧
    save (fun e => e) emptyStorage none = (emptyStorage, Except.error missingIdMessage) :=
  ⟨((save_spec (fun e => e) emptyStorage (some 5)).2 5 rfl).2.1,
   ((save_spec (fun e => e) emptyStorage (some 5)).2 5 rfl).2.2.1,
   (save_spec (fun e => e) emptyStorage none).1 rfl⟩

end InMemoryRepository
